import Mathlib

/-!
Shallow embedding of the `eth_trie_utils` crate (files `partial_trie.rs` and
`utils.rs`): the packed nibble-sequence type `Nibbles`, its slicing, popping,
splitting and merging arithmetic, the hex-prefix compact encoding, and the
recursive `PartialTrie` node type with its structural equality.

Machine integers are modelled as `Nat` with explicit truncation: the Rust
`U256` type is a 256-bit unsigned integer, so every left shift is reduced
modulo `2 ^ 256` and bitwise complement is taken against the all-ones word
`2 ^ 256 - 1`.  Byte strings are `List Nat` (each entry a byte value).
Rust strings are modelled as `List Char`.
-/

/-- Truncating left shift of a `U256` value: `ethereum_types::U256` drops the
bits shifted past position 255. -/
def u256shl (x n : Nat) : Nat := (x <<< n) % 2 ^ 256

/-- Bitwise complement of a `U256` value: flips the low 256 bits. -/
def u256not (x : Nat) : Nat := (2 ^ 256 - 1) ^^^ x

/-- Model of `utils::is_even` (for `usize` arguments): `(num & 1) == 0`. -/
def is_even (num : Nat) : Bool := num &&& 1 == 0

/-- Model of `utils::create_mask_of_1s`: `((U512::one() << amt) - 1)`
converted into a `U256`.  For `amt ≤ 256` (the only use sites; larger
amounts make the Rust conversion panic) this is `2 ^ amt - 1`. -/
def create_mask_of_1s (amt : Nat) : Nat := 2 ^ amt - 1

/-- Model of `U256::to_big_endian`: the 32 bytes of a `U256` value, most
significant first. -/
def U256.to_big_endian (k : Nat) : List Nat :=
  (List.range 32).map fun i => k / 256 ^ (31 - i) % 256

/-- Model of `U256::byte`: the `idx`-th byte counting from the least
significant end. -/
def U256.byte (k idx : Nat) : Nat := k >>> (8 * idx) % 256

/-- Bit length of a `U256` value, computed with structural fuel recursion.
`U256::bits` returns one plus the position of the highest set bit (0 for 0);
with 256 units of fuel this is exact for every 256-bit value. -/
def bitsFuel : Nat → Nat → Nat
  | 0, _ => 0
  | fuel + 1, k => if k = 0 then 0 else bitsFuel fuel (k / 2) + 1

/-- Model of `U256::bits` on a 256-bit value. -/
def U256.bits (k : Nat) : Nat := bitsFuel 256 k

/-- Model of the struct `Nibbles`: a sequence of `count` nibbles packed,
most significant first, into the low `4 * count` bits of a `U256`. -/
structure Nibbles where
  count : Nat
  packed : Nat
deriving DecidableEq, Repr

/-- Packing invariant of `Nibbles` (spec section 3): at most 64 nibbles and
no set bits in `packed` at or above bit position `4 * count`. -/
def Nibbles.wf (n : Nibbles) : Prop := n.count ≤ 64 ∧ n.packed < 2 ^ (4 * n.count)

instance (n : Nibbles) : Decidable n.wf := by
  unfold Nibbles.wf; infer_instance

/-- Model of `Nibbles::get_num_nibbles_in_key`: `(k.bits() + 3) / 4`. -/
def Nibbles.get_num_nibbles_in_key (k : Nat) : Nat := (U256.bits k + 3) / 4

/-- Model of `utils::nibbles`: build a `Nibbles` from a key with the count
inferred from the value's minimal bit length. -/
def nibblesOfKey (k : Nat) : Nibbles :=
  { count := Nibbles.get_num_nibbles_in_key k, packed := k }

/-- Model of `Nibbles::get_nibble_common`. -/
def Nibbles.get_nibble_common (k idx count : Nat) : Nat :=
  let nib_idx := count - idx - 1
  let byte := U256.byte k (nib_idx / 2)
  match is_even nib_idx with
  | false => (byte &&& 0b11110000) >>> 4
  | true => byte &&& 0b00001111

/-- Model of `Nibbles::get_nibble`. -/
def Nibbles.get_nibble (self : Nibbles) (idx : Nat) : Nat :=
  Nibbles.get_nibble_common self.packed idx self.count

/-- Model of `Nibbles::get_nibble_range_common`; the range `start..end` is
passed as the two endpoints `rs..re`. -/
def Nibbles.get_nibble_range_common (k rs re count : Nat) : Nibbles :=
  let range_count := re - rs
  let shift_amt := (count - re) * 4
  let mask := u256shl (create_mask_of_1s (range_count * 4)) shift_amt
  let range_packed := (k &&& mask) >>> shift_amt
  { count := range_count, packed := range_packed }

/-- Model of `Nibbles::get_nibble_range`. -/
def Nibbles.get_nibble_range (self : Nibbles) (rs re : Nat) : Nibbles :=
  Nibbles.get_nibble_range_common self.packed rs re self.count

/-- Model of `Nibbles::truncate_n_nibbles_mut`, returning the mutated value. -/
def Nibbles.truncate_n_nibbles_mut (self : Nibbles) (n : Nat) : Nibbles :=
  let mask_shift := (self.count - n) * 4
  let truncate_mask := u256not (u256shl (create_mask_of_1s (n * 4)) mask_shift)
  { count := self.count - n, packed := self.packed &&& truncate_mask }

/-- Model of `Nibbles::truncate_n_nibbles` (copies `self`, then mutates the
copy in place). -/
def Nibbles.truncate_n_nibbles (self : Nibbles) (n : Nat) : Nibbles :=
  Nibbles.truncate_n_nibbles_mut self n

/-- Model of `Nibbles::pop_next_nibble`: the popped nibble together with the
mutated `self`. -/
def Nibbles.pop_next_nibble (self : Nibbles) : Nat × Nibbles :=
  (Nibbles.get_nibble self 0, Nibbles.truncate_n_nibbles_mut self 1)

/-- Model of `Nibbles::pop_next_nibbles`: the popped run together with the
mutated `self`. -/
def Nibbles.pop_next_nibbles (self : Nibbles) (n : Nat) : Nibbles × Nibbles :=
  (Nibbles.get_nibble_range self 0 n, Nibbles.truncate_n_nibbles_mut self n)

/-- Model of `Nibbles::split_at_idx`. -/
def Nibbles.split_at_idx (self : Nibbles) (idx : Nat) : Nibbles × Nibbles :=
  let post_count := self.count - idx
  let post_mask := create_mask_of_1s (post_count * 4)
  let post : Nibbles := { count := post_count, packed := self.packed &&& post_mask }
  let pre_mask := u256not post_mask
  let pre_shift_amt := post_count * 4
  let pre : Nibbles := { count := idx, packed := (self.packed &&& pre_mask) >>> pre_shift_amt }
  (pre, post)

/-- Model of `Nibbles::split_at_idx_prefix`. -/
def Nibbles.split_at_idx_prefix (self : Nibbles) (idx : Nat) : Nibbles :=
  let shift_amt := (self.count - idx) * 4
  let pre_mask := u256shl (create_mask_of_1s (idx * 4)) shift_amt
  { count := idx, packed := (self.packed &&& pre_mask) >>> shift_amt }

/-- Model of `Nibbles::split_at_idx_postfix`. -/
def Nibbles.split_at_idx_postfix (self : Nibbles) (idx : Nat) : Nibbles :=
  let postfix_count := self.count - idx
  let mask := create_mask_of_1s (postfix_count * 4)
  { count := postfix_count, packed := self.packed &&& mask }

/-- Model of `Nibbles::merge`: `self` becomes the most significant part. -/
def Nibbles.merge (self post : Nibbles) : Nibbles :=
  { count := self.count + post.count
    packed := u256shl self.packed (post.count * 4) ||| post.packed }

/-- Mask used at iteration `i` of the loop in
`Nibbles::find_nibble_idx_that_differs_between_nibbles`: the initial mask is
`0xf << ((count - 1) * 4)` and it is shifted right by 4 once per iteration. -/
def Nibbles.diffMask (count i : Nat) : Nat := u256shl 0xf ((count - 1) * 4) >>> (4 * i)

/-- Model of `Nibbles::find_nibble_idx_that_differs_between_nibbles`.  The
Rust function asserts `n1.count == n2.count` and aborts on a mismatch; the
abort is modelled by `none`. -/
def Nibbles.find_nibble_idx_that_differs_between_nibbles (n1 n2 : Nibbles) : Option Nat :=
  if n1.count = n2.count then
    some (((List.range n1.count).find? fun i =>
      n1.packed &&& Nibbles.diffMask n1.count i != n2.packed &&& Nibbles.diffMask n1.count i).getD
        n1.count)
  else none

/-- Model of `Nibbles::min_bytes`. -/
def Nibbles.min_bytes (self : Nibbles) : Nat := (self.count + 1) / 2

/-- Model of `Nibbles::to_hex_prefix_encoding`, producing the output byte
string.  The Rust code zeroes a 33-byte scratch buffer, writes `packed` in
big-endian form into bytes `1..33`, ORs the flag nibble into the byte at
`33 - num_bytes`, and returns the bytes from that index on. -/
def Nibbles.to_hex_prefix_encoding (self : Nibbles) (is_leaf : Bool) : List Nat :=
  let num_nibbles := self.count + 1
  let num_bytes := (num_nibbles + 1) / 2
  let flag_byte_idx := 33 - num_bytes
  let bytes0 : List Nat := 0 :: U256.to_big_endian self.packed
  let odd_bit : Nat := if is_even self.count then 0 else 1
  let term_bit : Nat := if is_leaf then 1 else 0
  let flags : Nat := (odd_bit ||| term_bit <<< 1) <<< 4
  let bytes1 := bytes0.set flag_byte_idx (bytes0.getD flag_byte_idx 0 ||| flags)
  bytes1.drop flag_byte_idx

/-- Big-endian integer value of a byte string (spec section 8 reads the
hex-prefix examples this way). -/
def bytesToBEInt (l : List Nat) : Nat := l.foldl (fun a b => a * 256 + b) 0

/-- Flag byte of the hex-prefix encoding as the spec describes it: low bit
set iff the nibble count is odd, next bit set iff the node is a leaf, the
two bits placed in the high nibble of the first byte. -/
def hpFlags (count : Nat) (is_leaf : Bool) : Nat :=
  ((if count % 2 = 1 then 1 else 0) ||| (if is_leaf then 1 else 0) <<< 1) <<< 4

/-- Model of the error type `uint::FromHexError` returned by the external
`U256` string parser. -/
inductive FromHexError where
  | invalidHex : List Char → FromHexError
deriving DecidableEq, Repr

/-- Model of `StrToNibblesError`: a transparent wrapper (`#[from]`) around
the underlying `FromHexError`. -/
structure StrToNibblesError where
  source : FromHexError
deriving DecidableEq, Repr

/-- Value of a single hexadecimal digit character, if any, computed from the
character code (digits, then lowercase and uppercase letter ranges). -/
def hexVal (c : Char) : Option Nat :=
  if 48 ≤ c.toNat ∧ c.toNat ≤ 57 then some (c.toNat - 48)
  else if 97 ≤ c.toNat ∧ c.toNat ≤ 102 then some (c.toNat - 87)
  else if 65 ≤ c.toNat ∧ c.toNat ≤ 70 then some (c.toNat - 55)
  else none

/-- Accumulate the value of a run of hexadecimal digit characters, failing
on the first non-digit. -/
def parseHexDigitsAux (acc : Nat) : List Char → Option Nat
  | [] => some acc
  | c :: cs =>
    match hexVal c with
    | some v => parseHexDigitsAux (acc * 16 + v) cs
    | none => none

/-- Modelled from the spec: the external parser `U256::from_str` (from the
`uint` crate, not part of this repository's sources).  Per spec sections 4.2
and 7, the textual form is a `0x`-prefixed hexadecimal string that must fit
in 256 bits; any malformed input fails with a `FromHexError`. -/
def U256.from_str (s : List Char) : Except FromHexError Nat :=
  match s with
  | '0' :: 'x' :: ds =>
    if ds.length = 0 ∨ 64 < ds.length then Except.error (FromHexError.invalidHex s)
    else
      match parseHexDigitsAux 0 ds with
      | some v => Except.ok v
      | none => Except.error (FromHexError.invalidHex s)
  | _ => Except.error (FromHexError.invalidHex s)

/-- Model of `impl FromStr for Nibbles`: parse the packed value with the
external `U256` parser (`?` propagates its error, wrapped by `#[from]` into
a `StrToNibblesError`), then infer the count with
`get_num_nibbles_in_key`. -/
def Nibbles.from_str (s : List Char) : Except StrToNibblesError Nibbles :=
  match U256.from_str s with
  | Except.error e => Except.error ⟨e⟩
  | Except.ok packed =>
      Except.ok { count := Nibbles.get_num_nibbles_in_key packed, packed := packed }

/-- Model of the enum `PartialTrie`.  The 16 branch children are explicit
fields; `H256` digests are byte-string values and node values are byte
strings. -/
inductive PartialTrie where
  | empty : PartialTrie
  | hash : Nat → PartialTrie
  | branch : PartialTrie → PartialTrie → PartialTrie → PartialTrie →
      PartialTrie → PartialTrie → PartialTrie → PartialTrie →
      PartialTrie → PartialTrie → PartialTrie → PartialTrie →
      PartialTrie → PartialTrie → PartialTrie → PartialTrie →
      List Nat → PartialTrie
  | extension : Nibbles → PartialTrie → PartialTrie
  | leaf : Nibbles → List Nat → PartialTrie
deriving DecidableEq, Repr

/-- Model of `impl PartialEq for PartialTrie` exactly as written in the
source: note that the branch arm compares children with `!=` inside the
`all` closure. -/
def PartialTrie.rustEq : PartialTrie → PartialTrie → Bool
  | PartialTrie.empty, PartialTrie.empty => true
  | PartialTrie.hash h1, PartialTrie.hash h2 => h1 == h2
  | PartialTrie.branch a0 a1 a2 a3 a4 a5 a6 a7 a8 a9 a10 a11 a12 a13 a14 a15 v1,
    PartialTrie.branch b0 b1 b2 b3 b4 b5 b6 b7 b8 b9 b10 b11 b12 b13 b14 b15 v2 =>
      v1 == v2 &&
      (!PartialTrie.rustEq a0 b0 && (!PartialTrie.rustEq a1 b1 &&
      (!PartialTrie.rustEq a2 b2 && (!PartialTrie.rustEq a3 b3 &&
      (!PartialTrie.rustEq a4 b4 && (!PartialTrie.rustEq a5 b5 &&
      (!PartialTrie.rustEq a6 b6 && (!PartialTrie.rustEq a7 b7 &&
      (!PartialTrie.rustEq a8 b8 && (!PartialTrie.rustEq a9 b9 &&
      (!PartialTrie.rustEq a10 b10 && (!PartialTrie.rustEq a11 b11 &&
      (!PartialTrie.rustEq a12 b12 && (!PartialTrie.rustEq a13 b13 &&
      (!PartialTrie.rustEq a14 b14 && !PartialTrie.rustEq a15 b15)))))))))))))))
  | PartialTrie.extension n1 c1, PartialTrie.extension n2 c2 =>
      n1 == n2 && PartialTrie.rustEq c1 c2
  | PartialTrie.leaf n1 v1, PartialTrie.leaf n2 v2 => n1 == n2 && v1 == v2
  | _, _ => false

/-- Branch node whose 16 children are all `Empty` and whose value is the
empty byte string. -/
def emptyBranch : PartialTrie :=
  PartialTrie.branch PartialTrie.empty PartialTrie.empty PartialTrie.empty PartialTrie.empty
    PartialTrie.empty PartialTrie.empty PartialTrie.empty PartialTrie.empty
    PartialTrie.empty PartialTrie.empty PartialTrie.empty PartialTrie.empty
    PartialTrie.empty PartialTrie.empty PartialTrie.empty PartialTrie.empty
    []

/-- Big-endian byte expansion helper for the encoding proofs: the list of
`m` bytes representing `p` modulo `256 ^ m`, most significant first. -/
def bePad (m p : Nat) : List Nat := (List.range m).map fun i => p / 256 ^ (m - 1 - i) % 256

/-! ### Arithmetic characterizations of the bit-level operations -/

lemma mask_mul_lt {a s : Nat} (h : a + s ≤ 256) : (2 ^ a - 1) * 2 ^ s < 2 ^ 256 := by
  calc (2 ^ a - 1) * 2 ^ s < 2 ^ a * 2 ^ s := by
        have h2 : 0 < 2 ^ a := Nat.pos_pow_of_pos a (by omega)
        have h3 : 0 < 2 ^ s := Nat.pos_pow_of_pos s (by omega)
        exact (Nat.mul_lt_mul_right h3).mpr (by omega)
    _ = 2 ^ (a + s) := by rw [Nat.pow_add]
    _ ≤ 2 ^ 256 := Nat.pow_le_pow_right (by omega) h

lemma u256shl_eq {x n : Nat} (h : x * 2 ^ n < 2 ^ 256) : u256shl x n = x * 2 ^ n := by
  unfold u256shl
  rw [Nat.shiftLeft_eq]
  exact Nat.mod_eq_of_lt h

lemma u256shl_mask {a s : Nat} (h : a + s ≤ 256) :
    u256shl (create_mask_of_1s a) s = (2 ^ a - 1) * 2 ^ s :=
  u256shl_eq (mask_mul_lt h)

lemma land_mul_pow_shr (x a s : Nat) :
    (x &&& (2 ^ a - 1) * 2 ^ s) >>> s = x / 2 ^ s % 2 ^ a := by
  apply Nat.eq_of_testBit_eq
  intro j
  rw [← Nat.shiftLeft_eq, ← Nat.shiftRight_eq_div_pow]
  simp only [Nat.testBit_shiftRight, Nat.testBit_and, Nat.testBit_shiftLeft,
    Nat.testBit_mod_two_pow, Nat.testBit_two_pow_sub_one]
  have h1 : s ≤ s + j := Nat.le_add_right s j
  have h2 : s + j - s = j := by omega
  simp [h1, h2, Bool.and_comm]

lemma land_not_mul_pow_mask {x a s : Nat} (hx : x < 2 ^ (s + a)) (hs : s + a ≤ 256) :
    x &&& u256not ((2 ^ a - 1) * 2 ^ s) = x % 2 ^ s := by
  apply Nat.eq_of_testBit_eq
  intro j
  unfold u256not
  rw [← Nat.shiftLeft_eq]
  simp only [Nat.testBit_and, Nat.testBit_xor, Nat.testBit_shiftLeft,
    Nat.testBit_mod_two_pow, Nat.testBit_two_pow_sub_one]
  by_cases hj1 : j < s
  · have d1 : decide (j < 256) = true := by simp; omega
    have d2 : decide (s ≤ j) = false := by simp; omega
    have d3 : decide (j < s) = true := by simp; omega
    rw [d1, d2, d3]
    simp
  · by_cases hj2 : j < s + a
    · have d1 : decide (j < 256) = true := by simp; omega
      have d2 : decide (s ≤ j) = true := by simp; omega
      have d3 : decide (j - s < a) = true := by simp; omega
      have d4 : decide (j < s) = false := by simp; omega
      rw [d1, d2, d3, d4]
      simp
    · have hxj : x.testBit j = false := by
        apply Nat.testBit_lt_two_pow
        calc x < 2 ^ (s + a) := hx
          _ ≤ 2 ^ j := Nat.pow_le_pow_right (by omega) (by omega)
      have d4 : decide (j < s) = false := by simp; omega
      rw [hxj, d4]
      simp

lemma land_not_low_mask_shr {x k : Nat} (hx : x < 2 ^ 256) :
    (x &&& u256not (2 ^ k - 1)) >>> k = x / 2 ^ k := by
  apply Nat.eq_of_testBit_eq
  intro j
  unfold u256not
  rw [← Nat.shiftRight_eq_div_pow]
  simp only [Nat.testBit_shiftRight, Nat.testBit_and, Nat.testBit_xor,
    Nat.testBit_two_pow_sub_one]
  by_cases hj : k + j < 256
  · have d1 : decide (k + j < 256) = true := by simp only [decide_eq_true_eq]; omega
    have d2 : decide (k + j < k) = false := by simp only [decide_eq_false_iff_not]; omega
    rw [d1, d2]
    simp
  · have hxj : x.testBit (k + j) = false := by
      apply Nat.testBit_lt_two_pow
      calc x < 2 ^ 256 := hx
        _ ≤ 2 ^ (k + j) := Nat.pow_le_pow_right (by omega) (by omega)
    have d1 : decide (k + j < 256) = false := by simp only [decide_eq_false_iff_not]; omega
    have d2 : decide (k + j < k) = false := by simp only [decide_eq_false_iff_not]; omega
    rw [hxj, d1, d2]
    simp

lemma mul_pow_lor_eq_add {a b k : Nat} (hb : b < 2 ^ k) : a * 2 ^ k ||| b = a * 2 ^ k + b := by
  apply Nat.eq_of_testBit_eq
  intro j
  rw [Nat.mul_comm a (2 ^ k), Nat.testBit_mul_pow_two_add a hb j]
  simp only [Nat.testBit_or, Nat.testBit_mul_pow_two]
  by_cases hj : j < k
  · have hbj : decide (j ≥ k) = false := by simp; omega
    rw [hbj]
    simp [if_pos hj]
  · have hbj : b.testBit j = false := by
      apply Nat.testBit_lt_two_pow
      calc b < 2 ^ k := hb
        _ ≤ 2 ^ j := Nat.pow_le_pow_right (by omega) (by omega)
    have d1 : decide (j ≥ k) = true := by simp; omega
    rw [hbj, d1, if_neg hj]
    simp

lemma wf_packed {n : Nibbles} (h : n.wf) : n.packed < 2 ^ (n.count * 4) := by
  have h2 := h.2
  rwa [Nat.mul_comm] at h2

lemma wf_count {n : Nibbles} (h : n.wf) : n.count ≤ 64 := h.1

lemma wf_of {n : Nibbles} (hc : n.count ≤ 64) (hp : n.packed < 2 ^ (n.count * 4)) : n.wf :=
  ⟨hc, by rwa [Nat.mul_comm] at hp⟩

lemma packed_lt_u256 {n : Nibbles} (hc : n.count ≤ 64) (hp : n.packed < 2 ^ (n.count * 4)) :
    n.packed < 2 ^ 256 :=
  lt_of_lt_of_le hp (Nat.pow_le_pow_right (by omega) (by omega))

lemma get_nibble_range_common_spec (k rs re c : Nat) (hre : re ≤ c) (hc : c ≤ 64) :
    Nibbles.get_nibble_range_common k rs re c =
      { count := re - rs, packed := k / 2 ^ ((c - re) * 4) % 2 ^ ((re - rs) * 4) } := by
  simp only [Nibbles.get_nibble_range_common]
  rw [u256shl_mask (by omega), land_mul_pow_shr]

lemma get_nibble_range_spec (n : Nibbles) (rs re : Nat) (hre : re ≤ n.count)
    (hc : n.count ≤ 64) :
    Nibbles.get_nibble_range n rs re =
      { count := re - rs, packed := n.packed / 2 ^ ((n.count - re) * 4) % 2 ^ ((re - rs) * 4) } :=
  get_nibble_range_common_spec n.packed rs re n.count hre hc

lemma truncate_mut_spec (self : Nibbles) (n : Nat) (hn : n ≤ self.count)
    (hc : self.count ≤ 64) (hp : self.packed < 2 ^ (self.count * 4)) :
    Nibbles.truncate_n_nibbles_mut self n =
      { count := self.count - n, packed := self.packed % 2 ^ ((self.count - n) * 4) } := by
  simp only [Nibbles.truncate_n_nibbles_mut]
  rw [u256shl_mask (by omega)]
  have hx : self.packed < 2 ^ ((self.count - n) * 4 + n * 4) := by
    have he : (self.count - n) * 4 + n * 4 = self.count * 4 := by omega
    rw [he]
    exact hp
  rw [land_not_mul_pow_mask hx (by omega)]

lemma split_at_idx_spec (self : Nibbles) (idx : Nat) (hidx : idx ≤ self.count)
    (hc : self.count ≤ 64) (hp : self.packed < 2 ^ (self.count * 4)) :
    Nibbles.split_at_idx self idx =
      ({ count := idx, packed := self.packed / 2 ^ ((self.count - idx) * 4) },
       { count := self.count - idx, packed := self.packed % 2 ^ ((self.count - idx) * 4) }) := by
  simp only [Nibbles.split_at_idx, create_mask_of_1s]
  rw [Nat.and_pow_two_sub_one_eq_mod,
    land_not_low_mask_shr (packed_lt_u256 hc hp)]

lemma split_at_idx_prefix_spec (self : Nibbles) (idx : Nat) (hidx : idx ≤ self.count)
    (hc : self.count ≤ 64) :
    Nibbles.split_at_idx_prefix self idx =
      { count := idx,
        packed := self.packed / 2 ^ ((self.count - idx) * 4) % 2 ^ (idx * 4) } := by
  simp only [Nibbles.split_at_idx_prefix]
  rw [u256shl_mask (by omega), land_mul_pow_shr]

lemma split_at_idx_postfix_spec (self : Nibbles) (idx : Nat) :
    Nibbles.split_at_idx_postfix self idx =
      { count := self.count - idx,
        packed := self.packed % 2 ^ ((self.count - idx) * 4) } := by
  simp only [Nibbles.split_at_idx_postfix, create_mask_of_1s]
  rw [Nat.and_pow_two_sub_one_eq_mod]

lemma merge_spec (n1 n2 : Nibbles) (h1 : n1.packed < 2 ^ (n1.count * 4))
    (h2 : n2.packed < 2 ^ (n2.count * 4)) (hsum : n1.count + n2.count ≤ 64) :
    Nibbles.merge n1 n2 =
      { count := n1.count + n2.count,
        packed := n1.packed * 2 ^ (n2.count * 4) + n2.packed } := by
  simp only [Nibbles.merge]
  have hlt : n1.packed * 2 ^ (n2.count * 4) < 2 ^ 256 := by
    calc n1.packed * 2 ^ (n2.count * 4) < 2 ^ (n1.count * 4) * 2 ^ (n2.count * 4) := by
          exact (Nat.mul_lt_mul_right (Nat.pos_pow_of_pos _ (by omega))).mpr h1
      _ = 2 ^ (n1.count * 4 + n2.count * 4) := by rw [Nat.pow_add]
      _ ≤ 2 ^ 256 := Nat.pow_le_pow_right (by omega) (by omega)
  rw [u256shl_eq hlt, mul_pow_lor_eq_add h2]

lemma div_mul_add_mod_self (p K : Nat) : p / K * K + p % K = p := by
  rw [Nat.mul_comm]
  exact Nat.div_add_mod p K

/-- C3: split/merge round trip.  For every `Nibbles` value satisfying the
packing invariant (count at most 64) and every index `idx ≤ count`, merging
the two halves returned by `split_at_idx idx` (prefix first) reconstructs
the original value, with equal `count` and equal `packed`. -/
theorem split_merge_round_trip (n : Nibbles) (idx : Nat) (hwf : n.wf) (hidx : idx ≤ n.count) :
    Nibbles.merge (Nibbles.split_at_idx n idx).1 (Nibbles.split_at_idx n idx).2 = n := by
  have hc : n.count ≤ 64 := wf_count hwf
  have hp : n.packed < 2 ^ (n.count * 4) := wf_packed hwf
  rw [split_at_idx_spec n idx hidx hc hp]
  have hK : (0:Nat) < 2 ^ ((n.count - idx) * 4) := Nat.pos_pow_of_pos _ (by omega)
  have h1 : n.packed / 2 ^ ((n.count - idx) * 4) < 2 ^ (idx * 4) := by
    rw [Nat.div_lt_iff_lt_mul hK]
    calc n.packed < 2 ^ (n.count * 4) := hp
      _ = 2 ^ (idx * 4) * 2 ^ ((n.count - idx) * 4) := by
          rw [← Nat.pow_add]
          congr 1
          omega
  have h2 : n.packed % 2 ^ ((n.count - idx) * 4) < 2 ^ ((n.count - idx) * 4) :=
    Nat.mod_lt _ hK
  rw [merge_spec _ _ h1 h2 (by simp; omega)]
  have h3 : Nibbles.mk (idx + (n.count - idx))
      (n.packed / 2 ^ ((n.count - idx) * 4) * 2 ^ ((n.count - idx) * 4) +
        n.packed % 2 ^ ((n.count - idx) * 4)) = Nibbles.mk n.count n.packed := by
    simp only [Nibbles.mk.injEq]
    exact ⟨by omega, div_mul_add_mod_self _ _⟩
  exact h3.trans rfl

/-- C4: pop consistency.  For every `Nibbles` value satisfying the packing
invariant and every `k ≤ count`, if `pop_next_nibbles k` returns the popped
run `r` and mutates `self` to the remainder, then merging `r` with the
remainder reconstructs the original value. -/
theorem pop_merge_consistency (n : Nibbles) (k : Nat) (hwf : n.wf) (hk : k ≤ n.count) :
    Nibbles.merge (Nibbles.pop_next_nibbles n k).1 (Nibbles.pop_next_nibbles n k).2 = n := by
  have hc : n.count ≤ 64 := wf_count hwf
  have hp : n.packed < 2 ^ (n.count * 4) := wf_packed hwf
  simp only [Nibbles.pop_next_nibbles]
  rw [get_nibble_range_spec n 0 k hk hc, truncate_mut_spec n k hk hc hp]
  simp only [Nat.sub_zero]
  have hK : (0:Nat) < 2 ^ ((n.count - k) * 4) := Nat.pos_pow_of_pos _ (by omega)
  have hdiv : n.packed / 2 ^ ((n.count - k) * 4) < 2 ^ (k * 4) := by
    rw [Nat.div_lt_iff_lt_mul hK]
    calc n.packed < 2 ^ (n.count * 4) := hp
      _ = 2 ^ (k * 4) * 2 ^ ((n.count - k) * 4) := by
          rw [← Nat.pow_add]
          congr 1
          omega
  rw [Nat.mod_eq_of_lt hdiv]
  have h2 : n.packed % 2 ^ ((n.count - k) * 4) < 2 ^ ((n.count - k) * 4) := Nat.mod_lt _ hK
  rw [merge_spec _ _ hdiv h2 (by simp; omega)]
  have h3 : Nibbles.mk (k + (n.count - k))
      (n.packed / 2 ^ ((n.count - k) * 4) * 2 ^ ((n.count - k) * 4) +
        n.packed % 2 ^ ((n.count - k) * 4)) = Nibbles.mk n.count n.packed := by
    simp only [Nibbles.mk.injEq]
    exact ⟨by omega, div_mul_add_mod_self _ _⟩
  exact h3.trans rfl

/-- C10: merge identity.  For every `Nibbles` value satisfying the packing
invariant (count at most 64), merging with the empty `Nibbles`
(count 0, packed 0) on either side returns the value unchanged. -/
theorem merge_empty_identity (n : Nibbles) (hwf : n.wf) :
    Nibbles.merge n ⟨0, 0⟩ = n ∧ Nibbles.merge ⟨0, 0⟩ n = n := by
  have hc : n.count ≤ 64 := wf_count hwf
  have hp256 : n.packed < 2 ^ 256 := packed_lt_u256 hc (wf_packed hwf)
  constructor
  · simp only [Nibbles.merge]
    have h1 : u256shl n.packed (0 * 4) = n.packed := by
      unfold u256shl
      rw [Nat.shiftLeft_eq]
      have h0 : n.packed * 2 ^ (0 * 4) = n.packed := by norm_num
      rw [h0]
      exact Nat.mod_eq_of_lt hp256
    rw [h1]
    simp
  · simp only [Nibbles.merge]
    have h1 : u256shl 0 (n.count * 4) = 0 := by
      unfold u256shl
      simp [Nat.zero_shiftLeft]
    rw [h1]
    simp

/-- C9: suffix-extraction agreement.  For every `Nibbles` value satisfying
the packing invariant and every `k ≤ count`, the pure `truncate_n_nibbles k`
returns the same `Nibbles` (same count and packed) as
`split_at_idx_postfix k`, which in turn equals the second component of
`split_at_idx k`. -/
theorem truncate_agrees_with_suffix (n : Nibbles) (k : Nat) (hwf : n.wf) (hk : k ≤ n.count) :
    Nibbles.truncate_n_nibbles n k = Nibbles.split_at_idx_postfix n k ∧
    Nibbles.split_at_idx_postfix n k = (Nibbles.split_at_idx n k).2 := by
  have hc : n.count ≤ 64 := wf_count hwf
  have hp : n.packed < 2 ^ (n.count * 4) := wf_packed hwf
  constructor
  · simp only [Nibbles.truncate_n_nibbles]
    rw [truncate_mut_spec n k hk hc hp, split_at_idx_postfix_spec]
  · rw [split_at_idx_postfix_spec, split_at_idx_spec n k hk hc hp]

/-- C5: packing-invariant preservation.  Under the in-range preconditions
(range bounds and indices at most `count`, merged count at most 64), every
`Nibbles` returned by `get_nibble_range`, `truncate_n_nibbles` and its
in-place variant, `split_at_idx` and its prefix/postfix variants,
`pop_next_nibble`/`pop_next_nibbles` (both the popped part and the mutated
self) and `merge` has no set bits in `packed` at or above bit position
`4 * count`. -/
theorem ops_preserve_packing_invariant (n m : Nibbles) (rs re idx k : Nat)
    (hwf : n.wf) (hwfm : m.wf) (hre : rs ≤ re) (hrec : re ≤ n.count)
    (hidx : idx ≤ n.count) (hk : k ≤ n.count) (hone : 1 ≤ n.count)
    (hsum : n.count + m.count ≤ 64) :
    (Nibbles.get_nibble_range n rs re).wf ∧
    (Nibbles.truncate_n_nibbles n k).wf ∧
    (Nibbles.truncate_n_nibbles_mut n k).wf ∧
    (Nibbles.split_at_idx n idx).1.wf ∧
    (Nibbles.split_at_idx n idx).2.wf ∧
    ( Nibbles.split_at_idx_prefix n idx).wf ∧
    ( Nibbles.split_at_idx_postfix n idx).wf ∧
    (Nibbles.pop_next_nibbles n k).1.wf ∧
    (Nibbles.pop_next_nibbles n k).2.wf ∧
    (Nibbles.pop_next_nibble n).2.wf ∧
    (Nibbles.merge n m).wf := by
  have hc : n.count ≤ 64 := wf_count hwf
  have hp : n.packed < 2 ^ (n.count * 4) := wf_packed hwf
  have hcm : m.count ≤ 64 := wf_count hwfm
  have hpm : m.packed < 2 ^ (m.count * 4) := wf_packed hwfm
  have hKidx : (0:Nat) < 2 ^ ((n.count - idx) * 4) := Nat.pos_pow_of_pos _ (by omega)
  have hdiv : n.packed / 2 ^ ((n.count - idx) * 4) < 2 ^ (idx * 4) := by
    rw [Nat.div_lt_iff_lt_mul hKidx]
    calc n.packed < 2 ^ (n.count * 4) := hp
      _ = 2 ^ (idx * 4) * 2 ^ ((n.count - idx) * 4) := by
          rw [← Nat.pow_add]
          congr 1
          omega
  refine ⟨?_, ?_, ?_, ?_, ?_, ?_, ?_, ?_, ?_, ?_, ?_⟩
  · rw [get_nibble_range_spec n rs re hrec hc]
    exact wf_of (by simp; omega) (Nat.mod_lt _ (Nat.pos_pow_of_pos _ (by omega)))
  · simp only [Nibbles.truncate_n_nibbles]
    rw [truncate_mut_spec n k hk hc hp]
    exact wf_of (by simp; omega) (Nat.mod_lt _ (Nat.pos_pow_of_pos _ (by omega)))
  · rw [truncate_mut_spec n k hk hc hp]
    exact wf_of (by simp; omega) (Nat.mod_lt _ (Nat.pos_pow_of_pos _ (by omega)))
  · rw [split_at_idx_spec n idx hidx hc hp]
    exact wf_of (by simp; omega) hdiv
  · rw [split_at_idx_spec n idx hidx hc hp]
    exact wf_of (by simp; omega) (Nat.mod_lt _ hKidx)
  · rw [split_at_idx_prefix_spec n idx hidx hc]
    exact wf_of (by simp; omega) (Nat.mod_lt _ (Nat.pos_pow_of_pos _ (by omega)))
  · rw [split_at_idx_postfix_spec n idx]
    exact wf_of (by simp; omega) (Nat.mod_lt _ hKidx)
  · simp only [Nibbles.pop_next_nibbles]
    rw [get_nibble_range_spec n 0 k hk hc]
    exact wf_of (by simp; omega) (Nat.mod_lt _ (Nat.pos_pow_of_pos _ (by omega)))
  · simp only [Nibbles.pop_next_nibbles]
    rw [truncate_mut_spec n k hk hc hp]
    exact wf_of (by simp; omega) (Nat.mod_lt _ (Nat.pos_pow_of_pos _ (by omega)))
  · simp only [Nibbles.pop_next_nibble]
    rw [truncate_mut_spec n 1 hone hc hp]
    exact wf_of (by simp; omega) (Nat.mod_lt _ (Nat.pos_pow_of_pos _ (by omega)))
  · rw [merge_spec n m hp hpm hsum]
    apply wf_of (by simp; omega)
    have hp2 : m.packed < 2 ^ (m.count * 4) := hpm
    calc n.packed * 2 ^ (m.count * 4) + m.packed
        < n.packed * 2 ^ (m.count * 4) + 2 ^ (m.count * 4) := by omega
      _ = (n.packed + 1) * 2 ^ (m.count * 4) := by ring
      _ ≤ 2 ^ (n.count * 4) * 2 ^ (m.count * 4) := Nat.mul_le_mul_right _ (by omega)
      _ = 2 ^ ((n.count + m.count) * 4) := by
          rw [← Nat.pow_add]
          congr 1
          omega

lemma nat_bne_comm (a b : Nat) : (a != b) = (b != a) := by
  by_cases h : a = b
  · subst h
    rfl
  · have h1 : (a != b) = true := by simp [bne_iff_ne, h]
    have h2 : (b != a) = true := by simp [bne_iff_ne, Ne.symm h]
    rw [h1, h2]

lemma diffMask_eq (c i : Nat) (hc : c ≤ 64) (hi : i < c) :
    Nibbles.diffMask c i = 0xf * 2 ^ ((c - 1 - i) * 4) := by
  unfold Nibbles.diffMask
  rw [u256shl_eq ?hlt]
  case hlt =>
    calc (0xf : Nat) * 2 ^ ((c - 1) * 4) < 2 ^ 4 * 2 ^ ((c - 1) * 4) := by
          exact (Nat.mul_lt_mul_right (Nat.pos_pow_of_pos _ (by omega))).mpr (by omega)
      _ = 2 ^ (4 + (c - 1) * 4) := by rw [Nat.pow_add]
      _ ≤ 2 ^ 256 := Nat.pow_le_pow_right (by omega) (by omega)
  rw [Nat.shiftRight_eq_div_pow]
  have hd : (2:Nat) ^ (4 * i) ∣ 2 ^ ((c - 1) * 4) := pow_dvd_pow 2 (by omega)
  rw [Nat.mul_div_assoc _ hd, Nat.pow_div (by omega) (by omega)]
  have he : (c - 1) * 4 - 4 * i = (c - 1 - i) * 4 := by omega
  rw [he]

lemma masked_nibble_eq (p1 p2 c : Nat) (hc : c ≤ 64)
    (h1 : p1 < 2 ^ (c * 4)) (h2 : p2 < 2 ^ (c * 4))
    (h : ∀ i, i < c → p1 &&& Nibbles.diffMask c i = p2 &&& Nibbles.diffMask c i) :
    p1 = p2 := by
  apply Nat.eq_of_testBit_eq
  intro j
  by_cases hj : j < c * 4
  · have hmask := h (c - 1 - j / 4) (by omega)
    rw [diffMask_eq c _ hc (by omega)] at hmask
    have hexp : (c - 1 - (c - 1 - j / 4)) * 4 = j / 4 * 4 := by omega
    rw [hexp] at hmask
    have hmj : Nat.testBit (0xf * 2 ^ (j / 4 * 4)) j = true := by
      rw [← Nat.shiftLeft_eq, Nat.testBit_shiftLeft]
      have d1 : decide (j / 4 * 4 ≤ j) = true := by simp only [decide_eq_true_eq]; omega
      rw [d1]
      have he : j - j / 4 * 4 = j % 4 := by omega
      rw [he]
      show Nat.testBit (2 ^ 4 - 1) (j % 4) = true
      rw [Nat.testBit_two_pow_sub_one]
      simp only [decide_eq_true_eq]
      omega
    have ht := congrArg (fun x => Nat.testBit x j) hmask
    simp only [Nat.testBit_and, hmj, Bool.and_true] at ht
    exact ht
  · rw [Nat.testBit_lt_two_pow (lt_of_lt_of_le h1 (Nat.pow_le_pow_right (by omega) (by omega))),
      Nat.testBit_lt_two_pow (lt_of_lt_of_le h2 (Nat.pow_le_pow_right (by omega) (by omega)))]

/-- C6: differencing symmetry.  For `Nibbles` values satisfying the packing
invariant with equal counts, `find_nibble_idx_that_differs_between_nibbles`
is symmetric in its two arguments and returns the count exactly when the two
values are equal; on unequal counts the Rust assertion aborts, modelled here
by the function returning `none` instead of a value. -/
theorem find_diff_symm_complete (a b : Nibbles) (hwa : a.wf) (hwb : b.wf) :
    (a.count = b.count →
      Nibbles.find_nibble_idx_that_differs_between_nibbles a b =
        Nibbles.find_nibble_idx_that_differs_between_nibbles b a ∧
      (Nibbles.find_nibble_idx_that_differs_between_nibbles a b = some a.count ↔ a = b)) ∧
    (a.count ≠ b.count →
      Nibbles.find_nibble_idx_that_differs_between_nibbles a b = none) := by
  constructor
  · intro hcount
    unfold Nibbles.find_nibble_idx_that_differs_between_nibbles
    rw [if_pos hcount, if_pos hcount.symm]
    constructor
    · have hfun :
          (fun i => a.packed &&& Nibbles.diffMask a.count i !=
            b.packed &&& Nibbles.diffMask a.count i)
          = (fun i => b.packed &&& Nibbles.diffMask b.count i !=
            a.packed &&& Nibbles.diffMask b.count i) := by
        funext i
        rw [hcount]
        exact nat_bne_comm _ _
      rw [hfun, hcount]
    · simp only [Option.some.injEq]
      constructor
      · intro h
        cases hF : (List.range a.count).find? fun i =>
            a.packed &&& Nibbles.diffMask a.count i != b.packed &&& Nibbles.diffMask a.count i with
        | none =>
          have hall := List.find?_eq_none.mp hF
          have hpack : a.packed = b.packed := by
            apply masked_nibble_eq a.packed b.packed a.count (wf_count hwa)
              (wf_packed hwa) (by rw [hcount]; exact wf_packed hwb)
            intro i hi
            have hni := hall i (List.mem_range.mpr hi)
            simp only [bne_iff_ne, ne_eq, not_not] at hni
            exact hni
          cases a with
          | mk ca pa =>
            cases b with
            | mk cb pb =>
              simp only [Nibbles.mk.injEq]
              exact ⟨hcount, hpack⟩
        | some x =>
          have hx : x < a.count := List.mem_range.mp (List.mem_of_find?_eq_some hF)
          rw [hF] at h
          simp only [Option.getD_some] at h
          omega
      · intro heq
        subst heq
        have hF : ((List.range a.count).find? fun i =>
            a.packed &&& Nibbles.diffMask a.count i !=
              a.packed &&& Nibbles.diffMask a.count i) = none := by
          apply List.find?_eq_none.mpr
          intro x _
          simp
        rw [hF]
        rfl
  · intro h
    unfold Nibbles.find_nibble_idx_that_differs_between_nibbles
    rw [if_neg h]

/-- C2: evaluation of the source `PartialEq` at the failing input.  The
branch arm compares children with `!=` inside the `all` closure, so a
`Branch` node whose 16 children are all `Empty` (with the empty value) is
not equal to itself under the code, contradicting the claim that branch
equality is pointwise child equality and that every value equals itself. -/
theorem rust_eq_branch_self_eval : PartialTrie.rustEq emptyBranch emptyBranch = false := by
  decide

/-- C8: empty-path hex-prefix edge case.  For the empty `Nibbles`
(count 0, packed 0), `to_hex_prefix_encoding` returns exactly one byte:
`0x00` when `is_leaf` is false and `0x20` when `is_leaf` is true. -/
theorem hex_prefix_empty_encoding :
    Nibbles.to_hex_prefix_encoding ⟨0, 0⟩ false = [0x00] ∧
    Nibbles.to_hex_prefix_encoding ⟨0, 0⟩ true = [0x20] :=
  ⟨by decide, by decide⟩

/-- C7: parse failure handling.  For every input string, if the external
`U256` hexadecimal parser fails, `Nibbles::from_str` returns an error
wrapping the underlying malformed-hex error (never a default `Nibbles`
value); if the parser succeeds with value `v`, it returns `Ok` with the
count inferred as `get_num_nibbles_in_key v`. -/
theorem from_str_propagates (s : List Char) :
    (∀ e, U256.from_str s = Except.error e →
      Nibbles.from_str s = Except.error ⟨e⟩) ∧
    (∀ v, U256.from_str s = Except.ok v →
      Nibbles.from_str s =
        Except.ok { count := Nibbles.get_num_nibbles_in_key v, packed := v }) := by
  constructor
  · intro e he
    unfold Nibbles.from_str
    rw [he]
  · intro v hv
    unfold Nibbles.from_str
    rw [hv]

theorem from_str_propagates_witness :
    Nibbles.from_str ['0', 'x', 'g'] =
      Except.error ⟨FromHexError.invalidHex ['0', 'x', 'g']⟩ ∧
    Nibbles.from_str ['0', 'x', '1', '2'] =
      Except.ok { count := Nibbles.get_num_nibbles_in_key 18, packed := 18 } :=
  ⟨(from_str_propagates _).1 _ rfl, (from_str_propagates _).2 18 rfl⟩

theorem split_merge_round_trip_witness :
    Nibbles.merge (Nibbles.split_at_idx (nibblesOfKey 0x1234) 1).1
      (Nibbles.split_at_idx (nibblesOfKey 0x1234) 1).2 = nibblesOfKey 0x1234 :=
  split_merge_round_trip _ 1 (by decide) (by decide)

theorem pop_merge_consistency_witness :
    Nibbles.merge (Nibbles.pop_next_nibbles (nibblesOfKey 0x1234) 3).1
      (Nibbles.pop_next_nibbles (nibblesOfKey 0x1234) 3).2 = nibblesOfKey 0x1234 :=
  pop_merge_consistency _ 3 (by decide) (by decide)

theorem truncate_agrees_with_suffix_witness :
    Nibbles.truncate_n_nibbles (nibblesOfKey 0x1234) 2 =
      Nibbles.split_at_idx_postfix (nibblesOfKey 0x1234) 2 ∧
    Nibbles.split_at_idx_postfix (nibblesOfKey 0x1234) 2 =
      (Nibbles.split_at_idx (nibblesOfKey 0x1234) 2).2 :=
  truncate_agrees_with_suffix _ 2 (by decide) (by decide)

theorem merge_empty_identity_witness :
    Nibbles.merge (nibblesOfKey 0x12) ⟨0, 0⟩ = nibblesOfKey 0x12 ∧
    Nibbles.merge ⟨0, 0⟩ (nibblesOfKey 0x12) = nibblesOfKey 0x12 :=
  merge_empty_identity _ (by decide)

theorem ops_preserve_packing_invariant_witness :
    (Nibbles.get_nibble_range (nibblesOfKey 0x1234) 1 3).wf ∧
    (Nibbles.truncate_n_nibbles (nibblesOfKey 0x1234) 2).wf ∧
    (Nibbles.truncate_n_nibbles_mut (nibblesOfKey 0x1234) 2).wf ∧
    (Nibbles.split_at_idx (nibblesOfKey 0x1234) 2).1.wf ∧
    (Nibbles.split_at_idx (nibblesOfKey 0x1234) 2).2.wf ∧
    ( Nibbles.split_at_idx_prefix (nibblesOfKey 0x1234) 2).wf ∧
    ( Nibbles.split_at_idx_postfix (nibblesOfKey 0x1234) 2).wf ∧
    (Nibbles.pop_next_nibbles (nibblesOfKey 0x1234) 2).1.wf ∧
    (Nibbles.pop_next_nibbles (nibblesOfKey 0x1234) 2).2.wf ∧
    (Nibbles.pop_next_nibble (nibblesOfKey 0x1234)).2.wf ∧
    (Nibbles.merge (nibblesOfKey 0x1234) (nibblesOfKey 0x56)).wf :=
  ops_preserve_packing_invariant (nibblesOfKey 0x1234) (nibblesOfKey 0x56) 1 3 2 2
    (by decide) (by decide) (by decide) (by decide) (by decide) (by decide) (by decide)
    (by decide)

theorem find_diff_symm_complete_witness :
    (Nibbles.find_nibble_idx_that_differs_between_nibbles (nibblesOfKey 0x12)
        (nibblesOfKey 0x34) =
      Nibbles.find_nibble_idx_that_differs_between_nibbles (nibblesOfKey 0x34)
        (nibblesOfKey 0x12) ∧
    (Nibbles.find_nibble_idx_that_differs_between_nibbles (nibblesOfKey 0x12)
        (nibblesOfKey 0x34) = some (nibblesOfKey 0x12).count ↔
      nibblesOfKey 0x12 = nibblesOfKey 0x34)) :=
  (find_diff_symm_complete _ _ (by decide) (by decide)).1 (by decide)

lemma bePad_succ (m p : Nat) : bePad (m + 1) p = (p / 256 ^ m % 256) :: bePad m p := by
  unfold bePad
  rw [List.range_succ_eq_map, List.map_cons, List.map_map]
  congr 1
  congr 1
  funext i
  simp only [Function.comp_apply, Nat.succ_eq_add_one]
  have he : m + 1 - 1 - (i + 1) = m - 1 - i := by omega
  rw [he]

lemma bePad_length (m p : Nat) : (bePad m p).length = m := by
  simp [bePad]

lemma beInt_aux (l : List Nat) (a : Nat) :
    l.foldl (fun x b => x * 256 + b) a =
      a * 256 ^ l.length + l.foldl (fun x b => x * 256 + b) 0 := by
  induction l generalizing a with
  | nil => simp
  | cons c t ih =>
    simp only [List.foldl_cons, List.length_cons]
    rw [ih (a * 256 + c), ih (0 * 256 + c)]
    ring

lemma beInt_cons (h : Nat) (t : List Nat) :
    bytesToBEInt (h :: t) = h * 256 ^ t.length + bytesToBEInt t := by
  unfold bytesToBEInt
  simp only [List.foldl_cons]
  rw [beInt_aux t (0 * 256 + h)]
  ring_nf

lemma beInt_bePad (m p : Nat) : bytesToBEInt (bePad m p) = p % 256 ^ m := by
  induction m with
  | zero => simp [bePad, bytesToBEInt, Nat.mod_one]
  | succ m ih =>
    rw [bePad_succ, beInt_cons, bePad_length, ih, Nat.mod_pow_succ]
    ring

lemma bePad_drop (m j p : Nat) : (bePad m p).drop j = bePad (m - j) p := by
  induction j generalizing m with
  | zero => simp
  | succ j ih =>
    cases m with
    | zero => simp [bePad]
    | succ m =>
      rw [bePad_succ, List.drop_succ_cons, ih]
      congr 1
      omega

lemma bePad_getD (m j p : Nat) (hj : j < m) :
    (bePad m p).getD j 0 = p / 256 ^ (m - 1 - j) % 256 := by
  induction m generalizing j with
  | zero => omega
  | succ m ih =>
    rw [bePad_succ]
    cases j with
    | zero =>
      rw [List.getD_cons_zero]
      have he : m + 1 - 1 - 0 = m := by omega
      rw [he]
    | succ j =>
      rw [List.getD_cons_succ, ih j (by omega)]
      have he : m - 1 - j = m + 1 - 1 - (j + 1) := by omega
      rw [he]

lemma drop_set_eq {α : Type} (l : List α) (i : Nat) (v : α) (h : i < l.length) :
    (l.set i v).drop i = v :: l.drop (i + 1) := by
  induction l generalizing i with
  | nil => simp at h
  | cons a t ih =>
    cases i with
    | zero => simp
    | succ i =>
      simp only [List.set_cons_succ, List.drop_succ_cons]
      exact ih i (by simpa using h)

lemma bytes0_eq_bePad (p : Nat) (hp : p < 2 ^ 256) :
    0 :: U256.to_big_endian p = bePad 33 p := by
  have hd : p / 256 ^ 32 % 256 = 0 := by
    have h0 : p / 256 ^ 32 = 0 := by
      apply Nat.div_eq_of_lt
      calc p < 2 ^ 256 := hp
        _ = 256 ^ 32 := by norm_num
    rw [h0]
  have ht : U256.to_big_endian p = bePad 32 p := rfl
  rw [show (33:Nat) = 32 + 1 from rfl, bePad_succ, hd, ht]

lemma is_even_eq (n : Nat) : is_even n = (n % 2 == 0) := by
  simp [is_even, Nat.and_one_is_mod]

lemma to_hex_prefix_shape (cnt p : Nat) (leaf : Bool) (hc : cnt ≤ 64) (hp256 : p < 2 ^ 256) :
    Nibbles.to_hex_prefix_encoding ⟨cnt, p⟩ leaf =
      ((p / 256 ^ ((cnt + 1 + 1) / 2 - 1) % 256) |||
        ((if is_even cnt then 0 else 1) ||| (if leaf then 1 else 0) <<< 1) <<< 4) ::
      bePad ((cnt + 1 + 1) / 2 - 1) p := by
  simp only [Nibbles.to_hex_prefix_encoding]
  rw [bytes0_eq_bePad p hp256]
  generalize hnb : (cnt + 1 + 1) / 2 = nb
  have hnb1 : 1 ≤ nb := by omega
  have hnb33 : nb ≤ 33 := by omega
  rw [drop_set_eq _ _ _ (by rw [bePad_length]; omega)]
  rw [bePad_getD 33 (33 - nb) p (by omega)]
  rw [bePad_drop]
  have he1 : 33 - 1 - (33 - nb) = nb - 1 := by omega
  have he2 : 33 - (33 - nb + 1) = nb - 1 := by omega
  rw [he1, he2]

lemma to_hex_prefix_beInt (cnt p : Nat) (leaf : Bool) (hc : cnt ≤ 64) (hp : p < 2 ^ (cnt * 4)) :
    bytesToBEInt (Nibbles.to_hex_prefix_encoding ⟨cnt, p⟩ leaf) =
      hpFlags cnt leaf * 256 ^ ((cnt + 1 + 1) / 2 - 1) + p := by
  have hp256 : p < 2 ^ 256 := lt_of_lt_of_le hp (Nat.pow_le_pow_right (by omega) (by omega))
  rw [to_hex_prefix_shape cnt p leaf hc hp256, beInt_cons, bePad_length, beInt_bePad]
  rcases Nat.even_or_odd cnt with he | ho
  · obtain ⟨t, ht⟩ := he
    subst ht
    have hnb : (t + t + 1 + 1) / 2 - 1 = t := by omega
    rw [hnb]
    have h256t : (256:Nat) ^ t = 2 ^ ((t + t) * 4) := by
      rw [show (256:Nat) = 2 ^ 8 from rfl, ← pow_mul]
      congr 1
      omega
    have hdiv : p / 256 ^ t = 0 := Nat.div_eq_of_lt (by rw [h256t]; exact hp)
    have hmod : p % 256 ^ t = p := Nat.mod_eq_of_lt (by rw [h256t]; exact hp)
    rw [hdiv, hmod]
    have hev : is_even (t + t) = true := by
      rw [is_even_eq]
      simp only [beq_iff_eq]
      omega
    have hF : ((0:Nat) % 256 |||
        ((if is_even (t + t) then 0 else 1) ||| (if leaf then 1 else 0) <<< 1) <<< 4) =
        hpFlags (t + t) leaf := by
      unfold hpFlags
      rw [hev, if_neg (show ¬(t + t) % 2 = 1 by omega)]
      cases leaf <;> decide
    rw [hF]
  · obtain ⟨t, ht⟩ := ho
    subst ht
    have hnb : (2 * t + 1 + 1 + 1) / 2 - 1 = t := by omega
    rw [hnb]
    have h256t : (16:Nat) * 256 ^ t = 2 ^ ((2 * t + 1) * 4) := by
      rw [show (256:Nat) = 2 ^ 8 from rfl, ← pow_mul,
        show (16:Nat) = 2 ^ 4 from rfl, ← pow_add]
      congr 1
      omega
    have hq16 : p / 256 ^ t < 16 := by
      rw [Nat.div_lt_iff_lt_mul (Nat.pos_pow_of_pos _ (by omega))]
      calc p < 2 ^ ((2 * t + 1) * 4) := hp
        _ = 16 * 256 ^ t := h256t.symm
    have hqmod : p / 256 ^ t % 256 = p / 256 ^ t := Nat.mod_eq_of_lt (by omega)
    rw [hqmod]
    have hod : is_even (2 * t + 1) = false := by
      rw [is_even_eq]
      simp only [beq_eq_false_iff_ne, ne_eq]
      omega
    have hF : (p / 256 ^ t |||
        ((if is_even (2 * t + 1) then 0 else 1) ||| (if leaf then 1 else 0) <<< 1) <<< 4) =
        ((if is_even (2 * t + 1) then 0 else 1) ||| (if leaf then 1 else 0) <<< 1) <<< 4 +
          p / 256 ^ t := by
      rw [Nat.lor_comm, Nat.shiftLeft_eq]
      exact mul_pow_lor_eq_add (by simpa using hq16)
    rw [hF]
    have hFF : hpFlags (2 * t + 1) leaf =
        ((if is_even (2 * t + 1) then 0 else 1) ||| (if leaf then 1 else 0) <<< 1) <<< 4 := by
      unfold hpFlags
      rw [hod, if_pos (show (2 * t + 1) % 2 = 1 by omega)]
      simp
    rw [hFF]
    have hsplit : p / 256 ^ t * 256 ^ t + p % 256 ^ t = p := div_mul_add_mod_self p _
    calc (((if is_even (2 * t + 1) then 0 else 1) ||| (if leaf then 1 else 0) <<< 1) <<< 4 +
          p / 256 ^ t) * 256 ^ t + p % 256 ^ t
        = ((if is_even (2 * t + 1) then 0 else 1) ||| (if leaf then 1 else 0) <<< 1) <<< 4 *
            256 ^ t + (p / 256 ^ t * 256 ^ t + p % 256 ^ t) := by ring
      _ = ((if is_even (2 * t + 1) then 0 else 1) ||| (if leaf then 1 else 0) <<< 1) <<< 4 *
            256 ^ t + p := by rw [hsplit]

lemma to_hex_prefix_length (cnt p : Nat) (leaf : Bool) (hc : cnt ≤ 64) (hp256 : p < 2 ^ 256) :
    (Nibbles.to_hex_prefix_encoding ⟨cnt, p⟩ leaf).length = (cnt + 1 + 1) / 2 := by
  rw [to_hex_prefix_shape cnt p leaf hc hp256]
  simp [bePad_length]
  omega

lemma size_div2_add_one (k : Nat) (hk : k ≠ 0) : Nat.size k = Nat.size (k / 2) + 1 := by
  apply le_antisymm
  · apply Nat.size_le.mpr
    have h1 : k / 2 < 2 ^ Nat.size (k / 2) := Nat.lt_size_self _
    have h2 : 2 ^ (Nat.size (k / 2) + 1) = 2 * 2 ^ Nat.size (k / 2) := by ring
    omega
  · rcases Nat.eq_zero_or_pos (Nat.size (k / 2)) with h0 | hpos
    · rw [h0]
      have hp := Nat.size_pos.mpr (show 0 < k by omega)
      omega
    · obtain ⟨t, ht⟩ : ∃ t, Nat.size (k / 2) = t + 1 := ⟨Nat.size (k / 2) - 1, by omega⟩
      rw [ht]
      have h1 : 2 ^ t ≤ k / 2 := Nat.lt_size.mp (by omega)
      have h2 : t + 1 < Nat.size k := by
        apply Nat.lt_size.mpr
        have h3 : 2 ^ (t + 1) = 2 * 2 ^ t := by ring
        omega
      omega

lemma bitsFuel_eq_size (f k : Nat) (h : k < 2 ^ f) : bitsFuel f k = Nat.size k := by
  induction f generalizing k with
  | zero =>
    have h0 : k = 0 := by simpa using h
    subst h0
    simp [bitsFuel, Nat.size_zero]
  | succ f ih =>
    unfold bitsFuel
    by_cases h0 : k = 0
    · subst h0
      simp [Nat.size_zero]
    · rw [if_neg h0]
      rw [ih (k / 2) (by
        have h2 : 2 ^ (f + 1) = 2 * 2 ^ f := by ring
        omega)]
      exact (size_div2_add_one k h0).symm

lemma U256_bits_eq_size (k : Nat) (h : k < 2 ^ 256) : U256.bits k = Nat.size k :=
  bitsFuel_eq_size 256 k h

lemma nibblesOfKey_wf (k : Nat) (h : k < 2 ^ 256) : (nibblesOfKey k).wf := by
  constructor
  · show Nibbles.get_num_nibbles_in_key k ≤ 64
    unfold Nibbles.get_num_nibbles_in_key
    rw [U256_bits_eq_size k h]
    have hs : Nat.size k ≤ 256 := Nat.size_le.mpr h
    omega
  · show k < 2 ^ (4 * Nibbles.get_num_nibbles_in_key k)
    unfold Nibbles.get_num_nibbles_in_key
    rw [U256_bits_eq_size k h]
    calc k < 2 ^ Nat.size k := Nat.lt_size_self k
      _ ≤ 2 ^ (4 * ((Nat.size k + 3) / 4)) := Nat.pow_le_pow_right (by omega) (by omega)

/-- C1: canonical hex-prefix encoding on keys whose count is inferred from
the packed value.  Interpreting the output bytes as a big-endian integer,
the encoding equals the flag byte (odd bit and leaf bit in the high nibble
of the first byte) times `256 ^ (num_bytes - 1)` plus the packed value, and
the output is always exactly `ceil((count + 1) / 2)` bytes long; in
particular the four worked examples from the spec hold. -/
theorem to_hex_prefix_encoding_canonical :
    (∀ k : Nat, k < 2 ^ 256 → ∀ leaf : Bool,
      (Nibbles.to_hex_prefix_encoding (nibblesOfKey k) leaf).length =
        ((nibblesOfKey k).count + 1 + 1) / 2 ∧
      bytesToBEInt (Nibbles.to_hex_prefix_encoding (nibblesOfKey k) leaf) =
        hpFlags (nibblesOfKey k).count leaf *
          256 ^ (((nibblesOfKey k).count + 1 + 1) / 2 - 1) + k) ∧
    bytesToBEInt (Nibbles.to_hex_prefix_encoding (nibblesOfKey 0x1234) false) = 0x1234 ∧
    bytesToBEInt (Nibbles.to_hex_prefix_encoding (nibblesOfKey 0x1234) true) = 0x201234 ∧
    bytesToBEInt (Nibbles.to_hex_prefix_encoding (nibblesOfKey 0x12345) false) = 0x112345 ∧
    bytesToBEInt (Nibbles.to_hex_prefix_encoding (nibblesOfKey 0x12345) true) = 0x312345 := by
  refine ⟨?_, by decide, by decide, by decide, by decide⟩
  intro k hk leaf
  have hwf := nibblesOfKey_wf k hk
  have hc := wf_count hwf
  have hp := wf_packed hwf
  constructor
  · exact to_hex_prefix_length (nibblesOfKey k).count k leaf hc hk
  · exact to_hex_prefix_beInt (nibblesOfKey k).count k leaf hc hp

theorem to_hex_prefix_encoding_canonical_witness :
    (Nibbles.to_hex_prefix_encoding (nibblesOfKey 2) true).length =
      ((nibblesOfKey 2).count + 1 + 1) / 2 ∧
    bytesToBEInt (Nibbles.to_hex_prefix_encoding (nibblesOfKey 2) true) =
      hpFlags (nibblesOfKey 2).count true *
        256 ^ (((nibblesOfKey 2).count + 1 + 1) / 2 - 1) + 2 :=
  to_hex_prefix_encoding_canonical.1 2 (by norm_num) true
